import Mathlib

/-!
Shallow embedding of the biogo streaming sequence codecs:
the `fasta` package (Record-B header/body format reader and writer),
the `fastq` package (Record-A four-line format reader and writer), and
the `alignio` package (Collection Adapter bulk read/write).

Bytes are modelled as `Nat`, lines as `List Nat`.  A reader's input is the
list of newline-terminated lines delivered by the buffered source (the Go
readers obtain them via `ReadBytes('\n')` / `ReadLine`); terminators are not
part of a modelled line, matching the trimming both readers perform.
-/

set_option autoImplicit false

deriving instance DecidableEq for Except

namespace Biogo

/-- ASCII bytes recognised as whitespace by Go's `bytes.TrimSpace` and
`bytes.Fields` (via `unicode.IsSpace`) on byte input: space, tab, newline,
vertical tab, form feed, carriage return. -/
def isSpace (b : Nat) : Bool :=
  b == 32 || b == 9 || b == 10 || b == 11 || b == 12 || b == 13

/-- Model of `bytes.TrimSpace`: drop whitespace from both ends. -/
def trimSpace (l : List Nat) : List Nat :=
  ((l.dropWhile isSpace).reverse.dropWhile isSpace).reverse

/-- Model of `bytes.Join(bytes.Fields(l), nil)`: splitting around whitespace
runs and concatenating the pieces removes exactly the whitespace bytes. -/
def stripSpaces (l : List Nat) : List Nat :=
  l.filter (fun b => !isSpace b)

/-- Byte list of a string literal, for concrete test inputs. -/
def str (s : String) : List Nat :=
  s.toList.map Char.toNat

/-! ## fasta (Record-B): `seq.Seq` values and the writer -/

/-- The part of `seq.Seq` the fasta codec touches: `seq.New(label, body, nil)`
stores the label as `ID` and the letters as `Seq`. -/
structure FastaSeq where
  id : List Nat
  seqBody : List Nat
deriving DecidableEq

/-- Body line `i` of `fasta.Writer.Write`:
`SeqPrefix + string(s.Seq[Width*i:endLinePos]) + "\n"` with
`endLinePos = util.Min(Width*(i+1), s.Len())` (the newline terminator is
implicit in the line representation). -/
def chunkAt (w : Nat) (seqPre body : List Nat) (i : Nat) : List Nat :=
  seqPre ++ (body.take (min (w * (i + 1)) body.length)).drop (w * i)

/-- The chunk loop of `fasta.Writer.Write`:
`for i := 0; i*self.Width <= s.Len(); i++ { ... }`.  The loop is embedded
with explicit fuel; for `Width > 0` it performs `s.Len()/Width + 1`
iterations, so fuel `s.Len() + 1` is never exhausted. -/
def chunkLoop (w : Nat) (seqPre body : List Nat) : Nat → Nat → List (List Nat)
  | 0, _ => []
  | fuel + 1, i =>
    if w * i ≤ body.length then
      chunkAt w seqPre body i :: chunkLoop w seqPre body fuel (i + 1)
    else []

/-- `fasta.Writer.Write` as the list of newline-terminated lines it emits:
the header line `IDPrefix + s.ID`, then the body chunks. -/
def fastaWriteLines (idPre seqPre : List Nat) (w : Nat) (s : FastaSeq) :
    List (List Nat) :=
  (idPre ++ s.id) :: chunkLoop w seqPre s.seqBody (s.seqBody.length + 1) 0

/-! ## fasta (Record-B): the reader -/

/-- Result of one `fasta.Reader.Read` call: the reader's `last` field after
the call, the lines still unconsumed, and the returned sequence
(`none` models the `nil, os.EOF` return). -/
structure FastaReadOut where
  last : Option (List Nat)
  rest : List (List Nat)
  result : Option FastaSeq
deriving DecidableEq

/-- The `READ` loop of `fasta.Reader.Read`.  `last` is the reader's `last`
field, `label`/`body` the local variables.  Each raw line is trimmed (the
explicit `'\r'` strip in the source is subsumed by `bytes.TrimSpace`);
blank lines are skipped; an `IDPrefix` line either starts the record's label
(when `last` is nil) or is stashed into `last` for the next call and ends
the record; a `SeqPrefix` line contributes its whitespace-stripped remainder
to the body; other lines are ignored.  Exhausting the lines models
`ReadBytes` returning an error: with a pending `last` the record ends
successfully and `last` is cleared, otherwise the call returns `nil, os.EOF`. -/
def fastaReadLoop (idPre seqPre : List Nat)
    (last label : Option (List Nat)) (body : List Nat) :
    List (List Nat) → FastaReadOut
  | [] =>
    match last with
    | some _ => ⟨none, [], some ⟨label.getD [], body⟩⟩
    | none => ⟨none, [], none⟩
  | rawLine :: rest =>
    let line := trimSpace rawLine
    if line = [] then fastaReadLoop idPre seqPre last label body rest
    else if idPre.isPrefixOf line then
      match last with
      | none =>
        fastaReadLoop idPre seqPre (some (line.drop idPre.length))
          (some (line.drop idPre.length)) body rest
      | some l => ⟨some (line.drop idPre.length), rest, some ⟨l, body⟩⟩
    else if seqPre.isPrefixOf line then
      fastaReadLoop idPre seqPre last label
        (body ++ stripSpaces (line.drop seqPre.length)) rest
    else fastaReadLoop idPre seqPre last label body rest

/-- One `fasta.Reader.Read` call: the local `label` starts as `self.last`. -/
def fastaRead (idPre seqPre : List Nat) (last : Option (List Nat))
    (lines : List (List Nat)) : FastaReadOut :=
  fastaReadLoop idPre seqPre last last [] lines

/-- Default `IDPrefix` of `fasta.NewReader` / `NewWriter`: `">"`. -/
def fastaIdPre : List Nat := str ">"

/-- Default `SeqPrefix` of `fasta.NewReader` / `NewWriter`: `""`. -/
def fastaSeqPre : List Nat := str ""

/-! ## fastq (Record-A): sequences, reader, writer -/

/-- An `alphabet.QLetter`: a letter byte with its Phred quality score.
The zero value of `Qphred` is `0`, matching `make([]alphabet.QLetter, _)`. -/
structure QLetter where
  L : Nat
  Q : Nat
deriving DecidableEq

/-- The part of a `seqio.SequenceAppender` the fastq codec touches: name,
description, and the appended quality letters.  `Clone` copies all three
fields; `SetName`/`SetDescription` overwrite, `AppendQLetters` appends. -/
structure QSeq where
  name : List Nat
  desc : List Nat
  letters : List QLetter
deriving DecidableEq

/-- Errors of `fastq.Reader.Read`: the three `errors.New` protocol errors
and the passed-through end-of-stream error from `ReadLine`. -/
inductive FqErr where
  | eof
  | noHeader
  | qualHeaderMismatch
  | lengthMismatch
deriving DecidableEq

/-- `fastq.Reader.readHeader`: clone the template, set the name to the text
between the sigil and the first space or tab (`bytes.IndexAny(line, " \t")`),
and the description to everything after that separator (the clone keeps the
template's description when there is no separator). -/
def readHeader (tmpl : QSeq) (line : List Nat) : QSeq :=
  match line.findIdx? (fun b => b == 32 || b == 9) with
  | none => { tmpl with name := line.drop 1 }
  | some i => { tmpl with name := (line.take i).drop 1, desc := line.drop (i + 1) }

/-- The line loop of `fastq.Reader.Read`.  `dec` is the resolved encoding's
`DecodeToQphred`; `tmpl` the reader's template; `label`, `seqBuff`, `t`,
`inQual` the loop's state (`label` starts nil, tested via `len(label) == 0`;
`t` is only read after a header line overwrote it, so it is carried as a
plain value initialised to the template).  Each line is trimmed and blank
lines are skipped; a line is then classified exactly as the source's
`switch`: header and separator sigils are only recognised while `!inQual`,
whitespace-stripped sequence lines overwrite `seqBuff`, and the quality line
must match `seqBuff` in length, each byte decoded positionally, at which
point `t.AppendQLetters(seqBuff...)` and the call returns.  Exhausting the
lines models `ReadLine` returning an error (`nil, err`). -/
def fastqLoop (dec : Nat → Nat) (tmpl : QSeq) (label : List Nat)
    (seqBuff : List QLetter) (t : QSeq) (inQual : Bool) :
    List (List Nat) → Except FqErr QSeq
  | [] => .error .eof
  | rawLine :: rest =>
    let line := trimSpace rawLine
    if line = [] then fastqLoop dec tmpl label seqBuff t inQual rest
    else if !inQual && line.head? = some 64 then
      fastqLoop dec tmpl line seqBuff (readHeader tmpl line) inQual rest
    else if !inQual && line.head? = some 43 then
      if label = [] then .error .noHeader
      else if line.length > 1 && label.drop 1 ≠ line.drop 1 then
        .error .qualHeaderMismatch
      else fastqLoop dec tmpl label seqBuff t true rest
    else if !inQual then
      fastqLoop dec tmpl label
        ((stripSpaces line).map (fun b => ⟨b, 0⟩)) t inQual rest
    else
      let q := stripSpaces line
      if q.length ≠ seqBuff.length then .error .lengthMismatch
      else
        .ok { t with
              letters := t.letters ++
                (seqBuff.zip q).map (fun p => ⟨p.1.L, dec p.2⟩) }

/-- One `fastq.Reader.Read` call: `label`, `seqBuff` empty, `inQual` false. -/
def fastqRead (dec : Nat → Nat) (tmpl : QSeq) (lines : List (List Nat)) :
    Except FqErr QSeq :=
  fastqLoop dec tmpl [] [] tmpl false lines

/-- Header line of `fastq.Writer.writeHeader`: the sigil, the name, and
(only when the description is non-empty) a space and the description. -/
def fqHeaderLine (sigil : Nat) (s : QSeq) : List Nat :=
  sigil :: s.name ++ (if s.desc = [] then [] else 32 :: s.desc)

/-- `fastq.Writer.Write` as the list of newline-terminated lines it emits:
`'@'` header, letter bytes, `'+'` separator (repeating the header when `QID`
is set), and the quality bytes pushed through the resolved encoding's
`Encode`. -/
def fastqWriteLines (enc : Nat → Nat) (qid : Bool) (s : QSeq) :
    List (List Nat) :=
  [fqHeaderLine 64 s,
   s.letters.map (fun l => l.L),
   if qid then fqHeaderLine 43 s else [43],
   s.letters.map (fun l => enc l.Q)]

/-! ## alignio: the Collection Adapter -/

/-- Errors a wrapped single-record reader or writer can return: the
end-of-stream sentinel `os.EOF`, a protocol error, or an I/O error. -/
inductive AErr where
  | eof
  | protocol (msg : List Nat)
  | io (msg : List Nat)
deriving DecidableEq

/-- The loop of `alignio.Reader.Read` over the trace of results the wrapped
reader produces: a successful sequence is `a.Add`ed, `os.EOF` returns the
collection with no error, any other error returns `nil` and that error.
The wrapped reader yields one result per iteration, so a trace exhausted
without an error never arises; it is mapped to `none`. -/
def alignioReadLoop (acc : List FastaSeq) :
    List (Except AErr FastaSeq) → Option (Except AErr (List FastaSeq))
  | [] => none
  | .ok s :: rest => alignioReadLoop (acc ++ [s]) rest
  | .error .eof :: _ => some (.ok acc)
  | .error e :: _ => some (.error e)

/-- `alignio.Reader.Read`: start from the empty `alignment.Alignment`. -/
def alignioRead (rs : List (Except AErr FastaSeq)) :
    Option (Except AErr (List FastaSeq)) :=
  alignioReadLoop [] rs

/-- Outcome of `alignio.Writer.Write`: either a `return n, err` or the
`panic("cannot reach")` after the loop, with the bytes counted so far. -/
inductive WOut where
  | ret (n : Nat) (e : AErr)
  | panicked (n : Nat)
deriving DecidableEq

/-- The loop of `alignio.Writer.Write` over the collection, where `f` is the
wrapped writer's `Write`: each element's byte count is accumulated into `n`;
a non-nil error returns `n, err`; when the range loop finishes, control
reaches `panic("cannot reach")`. -/
def alignioWriteLoop (f : FastaSeq → Nat × Option AErr) (n : Nat) :
    List FastaSeq → WOut
  | [] => .panicked n
  | s :: rest =>
    match f s with
    | (c, some e) => .ret (n + c) e
    | (c, none) => alignioWriteLoop f (n + c) rest

/-- `alignio.Writer.Write`: byte counter starts at zero. -/
def alignioWrite (f : FastaSeq → Nat × Option AErr) (ss : List FastaSeq) :
    WOut :=
  alignioWriteLoop f 0 ss

/-! ## Helper lemmas about trimming and stripping -/

theorem dropWhile_eq_self_of_head (p : Nat → Bool) (l : List Nat)
    (h : ∀ b, l.head? = some b → p b = false) : l.dropWhile p = l := by
  cases l with
  | nil => rfl
  | cons a t => exact List.dropWhile_cons_of_neg (by simp [h a rfl])

theorem trimSpace_eq_self (l : List Nat)
    (h1 : ∀ b, l.head? = some b → isSpace b = false)
    (h2 : ∀ b, l.getLast? = some b → isSpace b = false) :
    trimSpace l = l := by
  unfold trimSpace
  rw [dropWhile_eq_self_of_head _ _ h1]
  rw [dropWhile_eq_self_of_head, List.reverse_reverse]
  intro b hb
  exact h2 b (by rwa [List.head?_reverse] at hb)

theorem trimSpace_of_all (l : List Nat) (h : ∀ b ∈ l, isSpace b = false) :
    trimSpace l = l := by
  refine trimSpace_eq_self l (fun b hb => h b (List.mem_of_mem_head? ?_))
    (fun b hb => h b (List.mem_of_getLast?_eq_some hb))
  rw [hb]
  rfl

theorem stripSpaces_of_all (l : List Nat) (h : ∀ b ∈ l, isSpace b = false) :
    stripSpaces l = l :=
  List.filter_eq_self.mpr (fun b hb => by simp [h b hb])

/-! ## The fasta writer chunk loop -/

theorem chunkLoop_eq (w : Nat) (hw : 0 < w) (seqPre body : List Nat) :
    ∀ fuel i, body.length / w < i + fuel →
      chunkLoop w seqPre body fuel i =
        (List.range' i (body.length / w + 1 - i)).map (chunkAt w seqPre body) := by
  intro fuel
  induction fuel with
  | zero =>
    intro i hi
    have h1 : body.length / w + 1 - i = 0 := by omega
    simp [chunkLoop, h1]
  | succ fuel ih =>
    intro i hi
    by_cases hle : w * i ≤ body.length
    · have hidiv : i ≤ body.length / w :=
        (Nat.le_div_iff_mul_le hw).mpr (by rwa [Nat.mul_comm] at hle)
      have hcount : body.length / w + 1 - i = (body.length / w - i) + 1 := by omega
      have hcount2 : body.length / w + 1 - (i + 1) = body.length / w - i := by omega
      rw [chunkLoop, if_pos hle, ih (i + 1) (by omega), hcount2, hcount,
        List.range'_succ, List.map_cons]
    · have hidiv : body.length / w < i := by
        by_contra hc
        push_neg at hc
        exact hle ((Nat.le_div_iff_mul_le hw).mp hc |>.trans_eq' (Nat.mul_comm i w).symm |>.trans_eq rfl)
      have h1 : body.length / w + 1 - i = 0 := by omega
      simp [chunkLoop, hle, h1]

theorem alignioReadLoop_append (ss : List FastaSeq) :
    ∀ (acc : List FastaSeq) (tail : List (Except AErr FastaSeq)),
      alignioReadLoop acc (ss.map Except.ok ++ tail) =
        alignioReadLoop (acc ++ ss) tail := by
  induction ss with
  | nil => intro acc tail; simp
  | cons s t ih =>
    intro acc tail
    have h1 : alignioReadLoop acc ((s :: t).map Except.ok ++ tail) =
        alignioReadLoop (acc ++ [s]) (t.map Except.ok ++ tail) := rfl
    rw [h1, ih, List.append_assoc, List.singleton_append]

/-! ## Claim theorems about the fasta codec and the Collection Adapter -/

/-- C3 is false on the code: with width 3 and body `ACGTAC` the chunk loop of
`fasta.Writer.Write` also runs at `i = 2` (its condition `3*2 <= 6` holds)
and emits a third, empty body line after `ACG` and `TAC`. -/
theorem fastaWrite_width3_counterexample :
    (fastaWriteLines fastaIdPre fastaSeqPre 3 ⟨str "x", str "ACGTAC"⟩).tail ≠
      [str "ACG", str "TAC"] := by decide

/-- C3 amended: the Record-B writer with width 3 on body `ACGTAC` emits the
header line and then exactly three body lines: `ACG`, `TAC`, and an empty
line. -/
theorem fastaWrite_width3_amended :
    fastaWriteLines fastaIdPre fastaSeqPre 3 ⟨str "x", str "ACGTAC"⟩ =
      [str ">x", str "ACG", str "TAC", str ""] := by decide

/-- C4: for every sequence and every width `W > 0`, the Record-B writer emits
the header line and then the body in chunks, chunk `i` covering body offsets
`[W*i, min(W*(i+1), len))`; the loop runs while `W*i ≤ len`, so exactly
`len/W + 1 ≥ 1` prefixed body lines are emitted, and a zero-length body
still produces one (empty) body line. -/
theorem fastaWrite_chunkSpec (idPre seqPre : List Nat) (w : Nat) (s : FastaSeq)
    (hw : 0 < w) :
    fastaWriteLines idPre seqPre w s =
      (idPre ++ s.id) ::
        (List.range (s.seqBody.length / w + 1)).map (chunkAt w seqPre s.seqBody) ∧
    (fastaWriteLines idPre seqPre w s).length = s.seqBody.length / w + 2 ∧
    (s.seqBody = [] →
      fastaWriteLines idPre seqPre w s = [idPre ++ s.id, seqPre]) := by
  have h := chunkLoop_eq w hw seqPre s.seqBody (s.seqBody.length + 1) 0
    (by have := Nat.div_le_self s.seqBody.length w; omega)
  refine ⟨?_, ?_, ?_⟩
  · rw [fastaWriteLines, h]
    simp [List.range_eq_range']
  · rw [fastaWriteLines, h]
    simp
  · intro hb
    rw [fastaWriteLines, h, hb]
    simp [chunkAt]

theorem fastaWrite_chunkSpec_witness :
    0 < 3 ∧
    (fastaWriteLines fastaIdPre fastaSeqPre 3 ⟨str "x", str "ACGTAC"⟩ =
        (fastaIdPre ++ str "x") ::
          (List.range ((str "ACGTAC").length / 3 + 1)).map
            (chunkAt 3 fastaSeqPre (str "ACGTAC")) ∧
      (fastaWriteLines fastaIdPre fastaSeqPre 3 ⟨str "x", str "ACGTAC"⟩).length =
        (str "ACGTAC").length / 3 + 2 ∧
      ((str "ACGTAC" : List Nat) = [] →
        fastaWriteLines fastaIdPre fastaSeqPre 3 ⟨str "x", str "ACGTAC"⟩ =
          [fastaIdPre ++ str "x", fastaSeqPre])) :=
  ⟨by decide,
   fastaWrite_chunkSpec fastaIdPre fastaSeqPre 3 ⟨str "x", str "ACGTAC"⟩ (by decide)⟩

/-- C7: reaching end-of-stream while a lookahead label is pending ends the
current record successfully (pending label cleared, assembled sequence
returned, the end-of-stream error suppressed); reaching it with no pending
label returns `nil, os.EOF`; and the stream `>a\nACGT\n>b\nTTTT\n` yields
exactly the records `a`→`ACGT` and `b`→`TTTT`, the boundary attributed via
the lookahead, followed by true exhaustion. -/
theorem fastaRead_lookahead_eof :
    (∀ (idPre seqP l : List Nat) (label : Option (List Nat)) (body : List Nat),
        fastaReadLoop idPre seqP (some l) label body [] =
          ⟨none, [], some ⟨label.getD [], body⟩⟩) ∧
    (∀ (idPre seqP : List Nat) (label : Option (List Nat)) (body : List Nat),
        fastaReadLoop idPre seqP none label body [] = ⟨none, [], none⟩) ∧
    fastaRead fastaIdPre fastaSeqPre none
        [str ">a", str "ACGT", str ">b", str "TTTT"] =
      ⟨some (str "b"), [str "TTTT"], some ⟨str "a", str "ACGT"⟩⟩ ∧
    fastaRead fastaIdPre fastaSeqPre (some (str "b")) [str "TTTT"] =
      ⟨none, [], some ⟨str "b", str "TTTT"⟩⟩ ∧
    fastaRead fastaIdPre fastaSeqPre none [] = ⟨none, [], none⟩ :=
  ⟨fun _ _ _ _ _ => rfl, fun _ _ _ _ => rfl, by decide, by decide, by decide⟩

/-- C1 is a code bug: `alignio.Writer.Write` marks the line after its loop as
unreachable (`panic("cannot reach")`), but when every element write succeeds
— in particular on the empty collection — the range loop finishes and
control reaches that panic instead of returning the accumulated byte count.
The error path does behave as claimed: the first failing write aborts the
bulk write with the bytes written so far. -/
theorem alignioWrite_panics_on_success :
    alignioWrite (fun _ => (5, none)) [] = .panicked 0 ∧
    alignioWrite (fun _ => (5, none)) [⟨str "a", []⟩, ⟨str "b", []⟩] =
      .panicked 10 ∧
    alignioWrite
        (fun s => if s.id = str "b" then (3, some (.io (str "e"))) else (5, none))
        [⟨str "a", []⟩, ⟨str "b", []⟩, ⟨str "c", []⟩] =
      .ret 8 (.io (str "e")) := by decide

/-- C8: bulk read appends each successfully read sequence in order and
returns the collection with no error exactly when end-of-stream is signaled
(the empty stream yields the empty collection); any other error — protocol
or I/O — aborts the bulk read, discards the partial collection, and is
surfaced. -/
theorem alignioRead_spec :
    (∀ ss : List FastaSeq,
        alignioRead (ss.map Except.ok ++ [Except.error AErr.eof]) =
          some (.ok ss)) ∧
    alignioRead [Except.error AErr.eof] = some (.ok []) ∧
    (∀ (ss : List FastaSeq) (m : List Nat) (rest : List (Except AErr FastaSeq)),
        alignioRead (ss.map Except.ok ++ Except.error (AErr.protocol m) :: rest) =
          some (.error (.protocol m))) ∧
    (∀ (ss : List FastaSeq) (m : List Nat) (rest : List (Except AErr FastaSeq)),
        alignioRead (ss.map Except.ok ++ Except.error (AErr.io m) :: rest) =
          some (.error (.io m))) := by
  refine ⟨fun ss => ?_, by decide, fun ss m rest => ?_, fun ss m rest => ?_⟩
  · rw [alignioRead, alignioReadLoop_append, List.nil_append]
    rfl
  · rw [alignioRead, alignioReadLoop_append]
    rfl
  · rw [alignioRead, alignioReadLoop_append]
    rfl

/-! ## Step lemmas for the fastq reader loop -/

theorem fastqBlank_step (dec : Nat → Nat) (tmpl : QSeq) (label : List Nat)
    (seqBuff : List QLetter) (t : QSeq) (inQual : Bool)
    (line : List Nat) (rest : List (List Nat)) (h : trimSpace line = []) :
    fastqLoop dec tmpl label seqBuff t inQual (line :: rest) =
      fastqLoop dec tmpl label seqBuff t inQual rest := by
  rw [fastqLoop]
  simp [h]

theorem fastqHeader_step (dec : Nat → Nat) (tmpl : QSeq) (label : List Nat)
    (seqBuff : List QLetter) (t : QSeq) (line : List Nat)
    (rest : List (List Nat)) (h1 : trimSpace line ≠ [])
    (h2 : (trimSpace line).head? = some 64) :
    fastqLoop dec tmpl label seqBuff t false (line :: rest) =
      fastqLoop dec tmpl (trimSpace line) seqBuff
        (readHeader tmpl (trimSpace line)) false rest := by
  rw [fastqLoop]
  simp [h1, h2]

theorem fastqSep_step (dec : Nat → Nat) (tmpl : QSeq) (label : List Nat)
    (seqBuff : List QLetter) (t : QSeq) (line : List Nat)
    (rest : List (List Nat)) (h1 : trimSpace line ≠ [])
    (h2 : (trimSpace line).head? = some 43) :
    fastqLoop dec tmpl label seqBuff t false (line :: rest) =
      (if label = [] then .error .noHeader
       else if 1 < (trimSpace line).length ∧ label.drop 1 ≠ (trimSpace line).drop 1
       then .error .qualHeaderMismatch
       else fastqLoop dec tmpl label seqBuff t true rest) := by
  rw [fastqLoop]
  simp [h1, h2]

theorem fastqSeq_step (dec : Nat → Nat) (tmpl : QSeq) (label : List Nat)
    (seqBuff : List QLetter) (t : QSeq) (line : List Nat)
    (rest : List (List Nat)) (h1 : trimSpace line ≠ [])
    (h2 : (trimSpace line).head? ≠ some 64)
    (h3 : (trimSpace line).head? ≠ some 43) :
    fastqLoop dec tmpl label seqBuff t false (line :: rest) =
      fastqLoop dec tmpl label
        ((stripSpaces (trimSpace line)).map (fun b => ⟨b, 0⟩)) t false rest := by
  rw [fastqLoop]
  simp [h1, h2, h3]

theorem fastqQual_step (dec : Nat → Nat) (tmpl : QSeq) (label : List Nat)
    (seqBuff : List QLetter) (t : QSeq) (line : List Nat)
    (rest : List (List Nat)) (h1 : trimSpace line ≠ []) :
    fastqLoop dec tmpl label seqBuff t true (line :: rest) =
      (if (stripSpaces (trimSpace line)).length ≠ seqBuff.length
       then .error .lengthMismatch
       else .ok { t with letters := t.letters ++
         ((seqBuff.zip (stripSpaces (trimSpace line))).map
           (fun p => ⟨p.1.L, dec p.2⟩)) }) := by
  rw [fastqLoop]
  simp [h1]

theorem fastqLoop_inQual_no_mismatch (dec : Nat → Nat) (tmpl : QSeq) :
    ∀ (lines : List (List Nat)) (label : List Nat) (seqBuff : List QLetter)
      (t : QSeq),
      fastqLoop dec tmpl label seqBuff t true lines ≠
        .error .qualHeaderMismatch := by
  intro lines
  induction lines with
  | nil => intro label seqBuff t h; exact absurd h (by simp [fastqLoop])
  | cons line rest ih =>
    intro label seqBuff t
    by_cases hb : trimSpace line = []
    · rw [fastqBlank_step _ _ _ _ _ _ _ _ hb]
      exact ih label seqBuff t
    · rw [fastqQual_step _ _ _ _ _ _ _ hb]
      by_cases hlen : (stripSpaces (trimSpace line)).length ≠ seqBuff.length
      · simp [hlen]
      · simp [hlen]

/-! ## Claim theorems about the fastq codec -/

/-- C2 is false on the code: each sequence-letter line *overwrites* the
buffer (`seqBuff = make([]alphabet.QLetter, len(line))`), it is not appended
(the source itself notes `TODO: Does not read multi-line fastq`).  With the
two sequence lines `AC` and `GT` the claim predicts an expected quality
length of 4, yet a quality line of length 2 completes the read and the
returned letters are `GT` alone. -/
theorem fastqSeqLines_counterexample :
    fastqRead (fun b => b - 33) ⟨[], [], []⟩
        [str "@n", str "AC", str "GT", str "+", str "!!"] =
      .ok ⟨str "n", [], [⟨71, 0⟩, ⟨84, 0⟩]⟩ ∧
    (str "AC").length + (str "GT").length = 4 := by decide

/-- C2 amended: when two or more non-blank sequence-letter lines appear
between the header and the separator, each line is whitespace-stripped and
*replaces* the letter buffer, so the expected quality length equals the
*last* line's letter count; accordingly, after `AC` then `GT` a quality line
of length 4 fails with the length-mismatch ProtocolError. -/
theorem fastqSeqLines_replace (dec : Nat → Nat) (tmpl : QSeq) (label : List Nat)
    (seqBuff : List QLetter) (t : QSeq) (line : List Nat)
    (rest : List (List Nat)) (h1 : trimSpace line ≠ [])
    (h2 : (trimSpace line).head? ≠ some 64)
    (h3 : (trimSpace line).head? ≠ some 43) :
    fastqLoop dec tmpl label seqBuff t false (line :: rest) =
      fastqLoop dec tmpl label
        ((stripSpaces (trimSpace line)).map (fun b => ⟨b, 0⟩)) t false rest ∧
    fastqRead (fun b => b - 33) ⟨[], [], []⟩
        [str "@n", str "AC", str "GT", str "+", str "!!!!"] =
      .error .lengthMismatch :=
  ⟨fastqSeq_step dec tmpl label seqBuff t line rest h1 h2 h3, by decide⟩

theorem fastqSeqLines_replace_witness :
    fastqLoop (fun b => b) ⟨[], [], []⟩ (str "@n") [] ⟨str "n", [], []⟩ false
        (str "AC" :: [str "+", str "!!"]) =
      fastqLoop (fun b => b) ⟨[], [], []⟩ (str "@n")
        ((stripSpaces (trimSpace (str "AC"))).map (fun b => ⟨b, 0⟩))
        ⟨str "n", [], []⟩ false [str "+", str "!!"] ∧
    fastqRead (fun b => b - 33) ⟨[], [], []⟩
        [str "@n", str "AC", str "GT", str "+", str "!!!!"] =
      .error .lengthMismatch :=
  fastqSeqLines_replace (fun b => b) ⟨[], [], []⟩ (str "@n") []
    ⟨str "n", [], []⟩ (str "AC") [str "+", str "!!"]
    (by decide) (by decide) (by decide)

/-- C5 is false as stated: the code compares the separator's trailing text
against the whole header line after its sigil — name *plus* description —
not against the name alone.  After the header `@name d` (name `name`,
description `d`) the separator `+name` carries trailing text equal to the
header's name, yet `Read` fails with the quality-header ProtocolError. -/
theorem fastqSep_counterexample :
    fastqRead (fun b => b) ⟨[], [], []⟩
        [str "@name d", str "A", str "+name", str "!"] =
      .error .qualHeaderMismatch ∧
    (readHeader ⟨[], [], []⟩ (str "@name d")).name = str "name" ∧
    (str "+name").drop 1 = str "name" := by decide

/-- C5 amended: a separator line with trailing text fails with the
quality-header ProtocolError exactly when that text differs from the header
line's text after its sigil (name plus any description): the separator step
errors precisely on that comparison, the quality state never produces this
error later, `+other` after `@id` fails, and `+name` after a bare `@name`
succeeds. -/
theorem fastqSep_match (dec : Nat → Nat) (tmpl : QSeq) (label : List Nat)
    (seqBuff : List QLetter) (t : QSeq) (line : List Nat)
    (rest : List (List Nat)) (h1 : trimSpace line ≠ [])
    (h2 : (trimSpace line).head? = some 43)
    (h3 : label ≠ []) (h4 : 1 < (trimSpace line).length) :
    (fastqLoop dec tmpl label seqBuff t false (line :: rest) =
        if label.drop 1 ≠ (trimSpace line).drop 1
        then .error .qualHeaderMismatch
        else fastqLoop dec tmpl label seqBuff t true rest) ∧
    (∀ (lines : List (List Nat)) (label' : List Nat)
        (seqBuff' : List QLetter) (t' : QSeq),
        fastqLoop dec tmpl label' seqBuff' t' true lines ≠
          .error .qualHeaderMismatch) ∧
    fastqRead (fun b => b) ⟨[], [], []⟩
        [str "@id", str "A", str "+other", str "!"] =
      .error .qualHeaderMismatch ∧
    fastqRead (fun b => b) ⟨[], [], []⟩
        [str "@name", str "A", str "+name", str "!"] =
      .ok ⟨str "name", [], [⟨65, 33⟩]⟩ := by
  refine ⟨?_, fastqLoop_inQual_no_mismatch dec tmpl, by decide, by decide⟩
  rw [fastqSep_step dec tmpl label seqBuff t line rest h1 h2, if_neg h3]
  simp [h4]

theorem fastqSep_match_witness :
    (fastqLoop (fun b => b) ⟨[], [], []⟩ (str "@name d") [⟨65, 0⟩]
        ⟨str "name", str "d", []⟩ false (str "+name" :: [str "!"]) =
        if (str "@name d").drop 1 ≠ (trimSpace (str "+name")).drop 1
        then .error .qualHeaderMismatch
        else fastqLoop (fun b => b) ⟨[], [], []⟩ (str "@name d") [⟨65, 0⟩]
          ⟨str "name", str "d", []⟩ true [str "!"]) ∧
    (∀ (lines : List (List Nat)) (label' : List Nat)
        (seqBuff' : List QLetter) (t' : QSeq),
        fastqLoop (fun b => b) ⟨[], [], []⟩ label' seqBuff' t' true lines ≠
          .error .qualHeaderMismatch) ∧
    fastqRead (fun b => b) ⟨[], [], []⟩
        [str "@id", str "A", str "+other", str "!"] =
      .error .qualHeaderMismatch ∧
    fastqRead (fun b => b) ⟨[], [], []⟩
        [str "@name", str "A", str "+name", str "!"] =
      .ok ⟨str "name", [], [⟨65, 33⟩]⟩ :=
  fastqSep_match (fun b => b) ⟨[], [], []⟩ (str "@name d") [⟨65, 0⟩]
    ⟨str "name", str "d", []⟩ (str "+name") [str "!"]
    (by decide) (by decide) (by decide) (by decide)

/-- C6: with the quality state active, the first non-blank line after the
separator, once whitespace-stripped, must have exactly the byte length of
the letter buffer: a mismatch (shorter or longer) fails with the
length-mismatch ProtocolError, and an exact match completes the call with
each quality byte decoded through the resolved codec and assigned
positionally to the corresponding letter. -/
theorem fastqQual_lengthContract (dec : Nat → Nat) (tmpl : QSeq)
    (label : List Nat) (seqBuff : List QLetter) (t : QSeq)
    (blanks : List (List Nat)) (qline : List Nat) (rest : List (List Nat))
    (hb : ∀ b ∈ blanks, trimSpace b = [])
    (hq : trimSpace qline ≠ []) :
    fastqLoop dec tmpl label seqBuff t true (blanks ++ qline :: rest) =
      (if (stripSpaces (trimSpace qline)).length ≠ seqBuff.length
       then .error .lengthMismatch
       else .ok { t with letters := t.letters ++
         ((seqBuff.zip (stripSpaces (trimSpace qline))).map
           (fun p => ⟨p.1.L, dec p.2⟩)) }) := by
  revert hb
  induction blanks with
  | nil =>
    intro hb
    simpa using fastqQual_step dec tmpl label seqBuff t qline rest hq
  | cons b bl ih =>
    intro hb
    rw [List.cons_append,
      fastqBlank_step _ _ _ _ _ _ _ _ (hb b (List.mem_cons_self b bl))]
    exact ih (fun x hx => hb x (List.mem_cons_of_mem b hx))

theorem fastqQual_lengthContract_witness :
    fastqLoop (fun b => b) ⟨[], [], []⟩ (str "@n") [⟨65, 0⟩, ⟨66, 0⟩]
        ⟨str "n", [], []⟩ true ([str "  "] ++ str "@+" :: []) =
      (if (stripSpaces (trimSpace (str "@+"))).length ≠
          ([⟨65, 0⟩, ⟨66, 0⟩] : List QLetter).length
       then .error .lengthMismatch
       else .ok { name := str "n", desc := [],
                  letters := [] ++
                    (([⟨65, 0⟩, ⟨66, 0⟩] : List QLetter).zip
                      (stripSpaces (trimSpace (str "@+")))).map
                      (fun p => ⟨p.1.L, p.2⟩) }) :=
  fastqQual_lengthContract (fun b => b) ⟨[], [], []⟩ (str "@n")
    [⟨65, 0⟩, ⟨66, 0⟩] ⟨str "n", [], []⟩ [str "  "] (str "@+") []
    (by decide) (by decide)

/-- C10: once the quality state is active a non-blank line is never
classified by its leading byte: for an arbitrary line — including one whose
first byte is `@` or `+` — the loop takes the quality branch
(length-checking and decoding), never the header or separator branch;
concretely, quality bytes `@` and `+` decode as ordinary scores. -/
theorem fastqQual_noReclassification (dec : Nat → Nat) (tmpl : QSeq)
    (label : List Nat) (seqBuff : List QLetter) (t : QSeq) (line : List Nat)
    (rest : List (List Nat)) (h : trimSpace line ≠ []) :
    fastqLoop dec tmpl label seqBuff t true (line :: rest) =
      (if (stripSpaces (trimSpace line)).length ≠ seqBuff.length
       then .error .lengthMismatch
       else .ok { t with letters := t.letters ++
         ((seqBuff.zip (stripSpaces (trimSpace line))).map
           (fun p => ⟨p.1.L, dec p.2⟩)) }) ∧
    fastqRead (fun b => b) ⟨[], [], []⟩ [str "@n", str "AB", str "+", str "@+"] =
      .ok ⟨str "n", [], [⟨65, 64⟩, ⟨66, 43⟩]⟩ :=
  ⟨fastqQual_step dec tmpl label seqBuff t line rest h, by decide⟩

theorem fastqQual_noReclassification_witness :
    fastqLoop (fun b => b) ⟨[], [], []⟩ (str "@n") [⟨65, 0⟩]
        ⟨str "n", [], []⟩ true (str "+" :: []) =
      (if (stripSpaces (trimSpace (str "+"))).length ≠
          ([⟨65, 0⟩] : List QLetter).length
       then .error .lengthMismatch
       else .ok { name := str "n", desc := [],
                  letters := [] ++
                    (([⟨65, 0⟩] : List QLetter).zip
                      (stripSpaces (trimSpace (str "+")))).map
                      (fun p => ⟨p.1.L, p.2⟩) }) ∧
    fastqRead (fun b => b) ⟨[], [], []⟩ [str "@n", str "AB", str "+", str "@+"] =
      .ok ⟨str "n", [], [⟨65, 64⟩, ⟨66, 43⟩]⟩ :=
  fastqQual_noReclassification (fun b => b) ⟨[], [], []⟩ (str "@n") [⟨65, 0⟩]
    ⟨str "n", [], []⟩ (str "+") [] (by decide)

/-! ## Lemmas for the fastq write/read round trip -/

theorem sepByte_false (b : Nat) (h : isSpace b = false) :
    (b == 32 || b == 9) = false := by
  rw [isSpace] at h
  simp only [Bool.or_eq_false_iff] at h ⊢
  exact h.1.1.1.1

theorem findIdx_sep_aux (desc : List Nat) :
    ∀ (name : List Nat), (∀ b ∈ name, isSpace b = false) →
      ∀ i, (name ++ 32 :: desc).findIdx? (fun b => b == 32 || b == 9) i =
        some (i + name.length) := by
  intro name
  induction name with
  | nil => intro _ i; simp [List.findIdx?_cons]
  | cons a t ih =>
    intro h i
    have hpa := sepByte_false a (h a (List.mem_cons_self a t))
    rw [List.cons_append, List.findIdx?_cons]
    simp only [hpa, Bool.false_eq_true, if_false]
    rw [ih (fun b hb => h b (List.mem_cons_of_mem a hb)) (i + 1)]
    congr 1
    simp [List.length_cons]
    omega

theorem findIdx_headerLine (name desc : List Nat)
    (hname : ∀ b ∈ name, isSpace b = false) :
    (64 :: name ++ 32 :: desc).findIdx? (fun b => b == 32 || b == 9) =
      some (name.length + 1) := by
  rw [List.cons_append, List.findIdx?_cons]
  simp only [show ((64 : Nat) == 32 || (64 : Nat) == 9) = false from rfl,
    Bool.false_eq_true, if_false]
  rw [findIdx_sep_aux desc name hname 1]
  congr 1
  omega

theorem findIdx_headerLine_none (name : List Nat)
    (hname : ∀ b ∈ name, isSpace b = false) :
    (64 :: name).findIdx? (fun b => b == 32 || b == 9) = none := by
  rw [List.findIdx?_eq_none_iff]
  intro x hx
  rcases List.mem_cons.mp hx with h64 | hmem
  · subst h64; decide
  · exact sepByte_false x (hname x hmem)

theorem getLast?_append_right (l₁ l₂ : List Nat) (h : l₂ ≠ []) :
    (l₁ ++ l₂).getLast? = l₂.getLast? := by
  rw [List.getLast?_append]
  cases hx : l₂.getLast? with
  | some b => rfl
  | none => exact absurd (List.getLast?_eq_none_iff.mp hx) h

theorem getLast?_cons_ne (a : Nat) (l : List Nat) (h : l ≠ []) :
    (a :: l).getLast? = l.getLast? := by
  cases l with
  | nil => exact absurd rfl h
  | cons x t => exact List.getLast?_cons_cons

theorem trim_headerLine (s : QSeq)
    (hname : ∀ b ∈ s.name, isSpace b = false)
    (hdescLast : ∀ b, s.desc.getLast? = some b → isSpace b = false) :
    trimSpace (fqHeaderLine 64 s) = fqHeaderLine 64 s := by
  apply trimSpace_eq_self
  · intro b hb
    rw [fqHeaderLine, List.cons_append, List.head?_cons, Option.some_inj] at hb
    subst hb
    rfl
  · intro b hb
    rw [fqHeaderLine] at hb
    by_cases hd : s.desc = []
    · rw [hd, if_pos rfl, List.append_nil] at hb
      cases hn : s.name with
      | nil =>
        rw [hn, show ((64 : Nat) :: ([] : List Nat)).getLast? = some 64 from rfl,
          Option.some_inj] at hb
        subst hb
        rfl
      | cons a t =>
        rw [hn, getLast?_cons_ne 64 (a :: t) (List.cons_ne_nil a t)] at hb
        exact hname b (hn ▸ List.mem_of_getLast?_eq_some hb)
    · rw [if_neg hd,
        getLast?_append_right (64 :: s.name) (32 :: s.desc)
          (List.cons_ne_nil 32 s.desc),
        getLast?_cons_ne 32 s.desc hd] at hb
      exact hdescLast b hb

theorem readHeader_headerLine (tmpl : QSeq) (s : QSeq)
    (hname : ∀ b ∈ s.name, isSpace b = false) :
    readHeader tmpl (fqHeaderLine 64 s) =
      ⟨s.name, if s.desc = [] then tmpl.desc else s.desc, tmpl.letters⟩ := by
  by_cases hd : s.desc = []
  · rw [fqHeaderLine, hd, if_pos rfl, List.append_nil, readHeader,
      findIdx_headerLine_none s.name hname]
    simp [hd]
  · rw [fqHeaderLine, if_neg hd, readHeader,
      findIdx_headerLine s.name s.desc hname]
    have h1 : ((64 : Nat) :: s.name).length = s.name.length + 1 := by simp
    have h2 : (((64 : Nat) :: s.name) ++ [32]).length = s.name.length + 1 + 1 := by
      simp
    simp only [QSeq.mk.injEq]
    refine ⟨?_, ?_, trivial⟩
    · rw [List.take_left' h1]
      rfl
    · rw [List.append_cons, List.drop_left' h2]
      simp [hd]

theorem qual_zip_decode (dec enc : Nat → Nat) (letters : List QLetter)
    (hdec : ∀ l ∈ letters, dec (enc l.Q) = l.Q) :
    (((letters.map (fun l => l.L)).map (fun b => (⟨b, 0⟩ : QLetter))).zip
        (letters.map (fun l => enc l.Q))).map
      (fun p => (⟨p.1.L, dec p.2⟩ : QLetter)) = letters := by
  rw [List.map_map, List.zip_map', List.map_map]
  have h : ∀ l ∈ letters,
      ((fun p => (⟨p.1.L, dec p.2⟩ : QLetter)) ∘
        (fun a => (((fun b => (⟨b, 0⟩ : QLetter)) ∘ (fun l => l.L)) a, enc a.Q))) l
        = id l := by
    intro l hl
    show (⟨l.L, dec (enc l.Q)⟩ : QLetter) = l
    rw [hdec l hl]
  rw [List.map_congr_left h, List.map_id]

theorem readHeader_headerLine0 (name desc : List Nat) (ltrs : List QLetter)
    (hname : ∀ b ∈ name, isSpace b = false) :
    readHeader ⟨[], [], []⟩ (fqHeaderLine 64 ⟨name, desc, ltrs⟩) =
      ⟨name, desc, []⟩ := by
  rw [readHeader_headerLine ⟨[], [], []⟩ ⟨name, desc, ltrs⟩ hname]
  by_cases h : desc = [] <;> simp [h]

/-- C9 is false as stated: the round trip is not universal over sequences
with non-empty letters and full quality.  For the sequence named `n` whose
single letter is the byte `+` (quality 0), the writer emits the lines `@n`,
`+`, `+`, `!`; reading them back, the letter line `+` is classified as the
separator (length 1, so no header comparison), the real separator line
becomes the quality line, and `Read` fails with the length-mismatch
ProtocolError instead of returning the sequence. -/
theorem fastqRoundTrip_counterexample :
    ((⟨str "n", [], [⟨43, 0⟩]⟩ : QSeq).letters ≠ []) ∧
    fastqRead (fun b => b - 33) ⟨[], [], []⟩
        (fastqWriteLines (fun q => q + 33) false ⟨str "n", [], [⟨43, 0⟩]⟩) =
      .error .lengthMismatch := by decide

/-- C9 amended: writing with the Record-A writer and reading the produced
lines back under the same resolved encoding returns the identical sequence
— name, description, letters in order, and quality scores — provided the
fields survive the line discipline: the name is whitespace-free, the
description has no line breaks and no trailing whitespace, the letters are
non-empty, whitespace-free, and do not begin with the `@` or `+` sigil
byte, the encoded quality bytes are whitespace-free, and the codec decodes
every encoded score back to itself (the codec's representable precision). -/
theorem fastqRoundTrip (enc dec : Nat → Nat) (s : QSeq)
    (hname : ∀ b ∈ s.name, isSpace b = false)
    (hdesc : ∀ b ∈ s.desc, b ≠ 10 ∧ b ≠ 13)
    (hdescLast : ∀ b, s.desc.getLast? = some b → isSpace b = false)
    (hlet : s.letters ≠ [])
    (hletL : ∀ l ∈ s.letters, isSpace l.L = false)
    (hheadL : ∀ l, s.letters.head? = some l → l.L ≠ 64 ∧ l.L ≠ 43)
    (henc : ∀ l ∈ s.letters, isSpace (enc l.Q) = false)
    (hdec : ∀ l ∈ s.letters, dec (enc l.Q) = l.Q) :
    fastqRead dec ⟨[], [], []⟩ (fastqWriteLines enc false s) = .ok s := by
  obtain ⟨name, desc, letters⟩ := s
  have hw : fastqWriteLines enc false ⟨name, desc, letters⟩ =
      [fqHeaderLine 64 ⟨name, desc, letters⟩,
       letters.map (fun l => l.L), [43],
       letters.map (fun l => enc l.Q)] := rfl
  have hH : trimSpace (fqHeaderLine 64 ⟨name, desc, letters⟩) =
      fqHeaderLine 64 ⟨name, desc, letters⟩ :=
    trim_headerLine ⟨name, desc, letters⟩ hname hdescLast
  have hHne : fqHeaderLine 64 ⟨name, desc, letters⟩ ≠ [] := by
    simp [fqHeaderLine]
  have hHhead : (fqHeaderLine 64 ⟨name, desc, letters⟩).head? = some 64 := by
    rw [fqHeaderLine, List.cons_append, List.head?_cons]
  have hlsAll : ∀ b ∈ letters.map (fun l => l.L), isSpace b = false := by
    intro b hb
    obtain ⟨l, hl, rfl⟩ := List.mem_map.mp hb
    exact hletL l hl
  have hls : trimSpace (letters.map (fun l => l.L)) =
      letters.map (fun l => l.L) := trimSpace_of_all _ hlsAll
  have hlsStrip : stripSpaces (letters.map (fun l => l.L)) =
      letters.map (fun l => l.L) := stripSpaces_of_all _ hlsAll
  have hlsne : letters.map (fun l => l.L) ≠ [] := by
    intro hnil
    exact hlet (List.map_eq_nil_iff.mp hnil)
  have hqsAll : ∀ b ∈ letters.map (fun l => enc l.Q), isSpace b = false := by
    intro b hb
    obtain ⟨l, hl, rfl⟩ := List.mem_map.mp hb
    exact henc l hl
  have hqs : trimSpace (letters.map (fun l => enc l.Q)) =
      letters.map (fun l => enc l.Q) := trimSpace_of_all _ hqsAll
  have hqsStrip : stripSpaces (letters.map (fun l => enc l.Q)) =
      letters.map (fun l => enc l.Q) := stripSpaces_of_all _ hqsAll
  have hqsne : letters.map (fun l => enc l.Q) ≠ [] := by
    intro hnil
    exact hlet (List.map_eq_nil_iff.mp hnil)
  obtain ⟨l0, lt, hlteq⟩ := List.exists_cons_of_ne_nil hlet
  have hlt : letters = l0 :: lt := hlteq
  have hl0 : l0.L ≠ 64 ∧ l0.L ≠ 43 := hheadL l0 (by rw [hlt]; rfl)
  have hlshead : (letters.map (fun l => l.L)).head? = some l0.L := by
    rw [hlt]; rfl
  rw [fastqRead, hw]
  rw [fastqHeader_step dec ⟨[], [], []⟩ [] [] ⟨[], [], []⟩
      (fqHeaderLine 64 ⟨name, desc, letters⟩)
      [letters.map (fun l => l.L), [43], letters.map (fun l => enc l.Q)]
      (by rw [hH]; exact hHne) (by rw [hH]; exact hHhead)]
  rw [hH, readHeader_headerLine0 name desc letters hname]
  rw [fastqSeq_step dec ⟨[], [], []⟩ (fqHeaderLine 64 ⟨name, desc, letters⟩)
      [] ⟨name, desc, []⟩ (letters.map (fun l => l.L))
      [[43], letters.map (fun l => enc l.Q)]
      (by rw [hls]; exact hlsne)
      (by rw [hls, hlshead]; intro hcon; exact hl0.1 (Option.some_inj.mp hcon))
      (by rw [hls, hlshead]; intro hcon; exact hl0.2 (Option.some_inj.mp hcon))]
  rw [hls, hlsStrip]
  rw [fastqSep_step dec ⟨[], [], []⟩ (fqHeaderLine 64 ⟨name, desc, letters⟩)
      ((letters.map (fun l => l.L)).map (fun b => ⟨b, 0⟩)) ⟨name, desc, []⟩
      [43] [letters.map (fun l => enc l.Q)] (by decide) (by decide)]
  rw [if_neg hHne]
  rw [if_neg (by simp [show trimSpace [43] = [43] from rfl])]
  rw [fastqQual_step dec ⟨[], [], []⟩ (fqHeaderLine 64 ⟨name, desc, letters⟩)
      ((letters.map (fun l => l.L)).map (fun b => ⟨b, 0⟩)) ⟨name, desc, []⟩
      (letters.map (fun l => enc l.Q)) [] (by rw [hqs]; exact hqsne)]
  rw [hqs, hqsStrip]
  rw [if_neg (by simp)]
  show Except.ok
      (⟨name, desc,
        [] ++ (((letters.map (fun l => l.L)).map
            (fun b => (⟨b, 0⟩ : QLetter))).zip
          (letters.map (fun l => enc l.Q))).map
          (fun p => (⟨p.1.L, dec p.2⟩ : QLetter))⟩ : QSeq) =
    Except.ok (⟨name, desc, letters⟩ : QSeq)
  rw [List.nil_append, qual_zip_decode dec enc letters hdec]

theorem fastqRoundTrip_witness :
    fastqRead (fun b => b - 33) ⟨[], [], []⟩
        (fastqWriteLines (fun q => q + 33) false
          ⟨str "n", str "d", [⟨65, 5⟩, ⟨67, 9⟩]⟩) =
      .ok ⟨str "n", str "d", [⟨65, 5⟩, ⟨67, 9⟩]⟩ :=
  fastqRoundTrip (fun q => q + 33) (fun b => b - 33)
    ⟨str "n", str "d", [⟨65, 5⟩, ⟨67, 9⟩]⟩
    (by decide) (by decide) (by decide) (by decide) (by decide) (by decide)
    (by decide) (by decide)

end Biogo
